import Mathlib

/-!
Verification development for the bf interpreter in src/main.rs.

The source is a Rust program with three engines (modules in the file):
`ShiftAddEngine` (the one `main` actually runs), `MergeTokenEngineExtra`
and `MergeTokenEngine`.  Each engine has a `generate` function (compiler)
and an `execute` function (VM).  We embed all machine integers as `Nat`
bit patterns with explicit modular arithmetic:

* `u8` cell values / increments: `Nat` taken modulo 256;
* `i16` offsets: the 16-bit two-complement bit pattern, a `Nat < 65536`;
* `usize`: a `Nat` taken modulo 2 ^ 64; the cast `i16 as usize`
  sign-extends, modelled by `sext16`.

The Rust emission buffer is a `Vec` pushed at the end; we store it
reversed (head = most recently pushed instruction) so the peephole
patterns of the source, which inspect the tail, become head patterns.
`addrGet l a` reads the instruction at absolute address `a` (address 0 =
bottom of the buffer), `addrSet` patches it; `List.reverse` recovers the
program in address order.

Rust `panic!` and failing `unwrap()`/`try_into().unwrap()` calls are
modelled by a dedicated `crash` result; an out-of-bounds `get_unchecked`
(undefined behaviour) is modelled by the `ubT`/`ubP` step results.  The
VM loop is run with explicit fuel.
-/

def DATA_LEN : Nat := 2 ^ 16

def W64 : Nat := 2 ^ 64

/-- The cast `i as usize` of an i16 bit pattern `b < 65536`: sign extension. -/
def sext16 (b : Nat) : Nat := if b < 32768 then b else 2 ^ 64 - 65536 + b

/-- Two-complement negation of an i16 bit pattern (the `-x` in the fusion guards). -/
def negW (x : Nat) : Nat := (65536 - x % 65536) % 65536

/-- The tape with cell `i` set to `v`. -/
def updateTape (t : Nat → Nat) (i v : Nat) : Nat → Nat := fun j => if j = i then v else t j

def zeroTape : Nat → Nat := fun _ => 0

/-- The eight token kinds (`enum BasicOpcode` in the source). -/
inductive BasicOpcode
  | Add | Sub | Open | Close | Right | Left | Dot | Comma
deriving DecidableEq

/-- `fn to_basic_opcode(c: u8) -> Option<BasicOpcode>` on byte values. -/
def to_basic_opcode (c : Nat) : Option BasicOpcode :=
  match c with
  | 43 => some .Add
  | 45 => some .Sub
  | 62 => some .Right
  | 60 => some .Left
  | 91 => some .Open
  | 93 => some .Close
  | 46 => some .Dot
  | 44 => some .Comma
  | _ => none

inductive CompileErr
  | ExtraClose | ExtraOpen
deriving DecidableEq

/-- Compiler state: the emission buffer (reversed: head = last pushed) and
the open-loop address stack (head = top). -/
structure GenSt (α : Type) where
  rbuf : List α
  stack : List Nat

/-- Result of one compiler step or of folding several steps. -/
inductive GenRes (α : Type)
  | mid (s : GenSt α)
  | errC (e : CompileErr)
  | crash

/-- Result of a whole `generate` call. `crash` models a Rust panic. -/
inductive GenOut (α : Type)
  | ok (p : List α)
  | errC (e : CompileErr)
  | crash
deriving DecidableEq

/-- Result of the redundant-code check that runs after every token. -/
inductive RC (α : Type)
  | keep (r : List α)
  | crash

/-- Instruction at absolute address `a` of the reversed buffer `l`
(address 0 = bottom = last list element). -/
def addrGet {α : Type} : List α → Nat → Option α
  | [], _ => none
  | x :: l, a => if a = l.length then some x else addrGet l a

/-- Patch the instruction at absolute address `a` of the reversed buffer. -/
def addrSet {α : Type} : List α → Nat → α → List α
  | [], _, _ => []
  | x :: l, a, v => if a = l.length then v :: l else x :: addrSet l a v

/-- VM registers plus tape, remaining input and produced output. -/
structure VMState where
  pc : Nat
  dp : Nat
  tape : Nat → Nat
  inp : List Nat
  out : List Nat

/-- Result of one VM step.  `done` is a `break` out of the execution loop
(normal completion), `crash` a Rust panic, `ubT`/`ubP` an out-of-bounds
unchecked access to the tape / the opcode array. -/
inductive StepRes
  | cont (s : VMState)
  | done (tape : Nat → Nat) (out : List Nat)
  | crash
  | ubT (i : Nat)
  | ubP (i : Nat)
  | noFuel

/-- Result of a whole (fuelled) execution. -/
inductive Outcome
  | halted (tape : Nat → Nat) (out : List Nat)
  | crash
  | ubTape (i : Nat)
  | ubPc (i : Nat)
  | fuelOut

/-- Cell `i` of the final tape of a normally halted run. -/
def cellOf : Outcome → Nat → Option Nat
  | .halted t _, i => some (t i)
  | _, _ => none

/-- Output bytes of a normally halted run. -/
def outOf : Outcome → Option (List Nat)
  | .halted _ o => some o
  | _ => none

namespace ShiftAddEngine

/-- `enum Opcode` of mod `shift_add_engine`. -/
inductive Opcode
  | BranchZero (t : Nat)
  | BranchNotZero (t : Nat)
  | AddRight (inc shift : Nat)
  | Clear
  | AddTo (o : Nat)
  | SubTo (o : Nat)
  | Seek (o : Nat)
  | Dot
  | Comma
  | Exit
deriving DecidableEq

/-- Token `+`: merge into a trailing `AddRight(p, 0)` or push `AddRight(1, 0)`. -/
def stepAdd (r : List Opcode) : List Opcode :=
  match r with
  | .AddRight p 0 :: rest => .AddRight ((p + 1) % 256) 0 :: rest
  | _ => .AddRight 1 0 :: r

/-- Token `-`: wrapping add of 255 to the delta. -/
def stepSub (r : List Opcode) : List Opcode :=
  match r with
  | .AddRight p 0 :: rest => .AddRight ((p + 255) % 256) 0 :: rest
  | _ => .AddRight 255 0 :: r

/-- Token `>`: merge into any trailing `AddRight`. -/
def stepRight (r : List Opcode) : List Opcode :=
  match r with
  | .AddRight p q :: rest => .AddRight p ((q + 1) % 65536) :: rest
  | _ => .AddRight 0 1 :: r

/-- Token `<`: wrapping add of -1 to the shift. -/
def stepLeft (r : List Opcode) : List Opcode :=
  match r with
  | .AddRight p q :: rest => .AddRight p ((q + 65535) % 65536) :: rest
  | _ => .AddRight 0 65535 :: r

/-- The redundant-code match run after every token.  The source pops and
then executes `panic!()` in the second and third arm. -/
def redundCheck (r : List Opcode) : RC Opcode :=
  match r with
  | .Clear :: .AddRight _ 0 :: rest => .keep (.Clear :: rest)
  | .AddTo _ :: .Clear :: _ => .crash
  | .AddRight 0 0 :: _ => .crash
  | _ => .keep r

/-- Default `LoopClose` arm: push `BranchNotZero(other)`; the
`try_into().unwrap()` crashes if `other` does not fit in a u16. -/
def pushBNZ (r1 : List Opcode) (other : Nat) (rest : List Nat) : GenRes Opcode :=
  if other < 65536 then .mid ⟨.BranchNotZero other :: r1, rest⟩ else .crash

/-- The `LoopClose` handling: pop the open stack, patch the placeholder
(the `try_into().unwrap()` on `this` crashes above 65535), then try the
fusion patterns in source order. -/
def closeStep (s : GenSt Opcode) : GenRes Opcode :=
  match s.stack with
  | [] => .errC .ExtraClose
  | other :: rest =>
    if s.rbuf.length < 65536 then
      match addrSet s.rbuf other (.BranchZero s.rbuf.length) with
      | .AddRight _ 0 :: .BranchZero _ :: rs => .mid ⟨.Clear :: rs, rest⟩
      | .AddRight 1 y :: .AddRight 255 x :: .BranchZero _ :: rs =>
        if negW x = y ∧ x ≠ 0 then .mid ⟨.AddTo x :: rs, rest⟩
        else pushBNZ (addrSet s.rbuf other (.BranchZero s.rbuf.length)) other rest
      | .AddRight 255 y :: .AddRight 255 x :: .BranchZero _ :: rs =>
        if negW x = y ∧ x ≠ 0 then .mid ⟨.SubTo x :: rs, rest⟩
        else pushBNZ (addrSet s.rbuf other (.BranchZero s.rbuf.length)) other rest
      | .AddRight _ x :: .BranchZero _ :: rs => .mid ⟨.Seek x :: rs, rest⟩
      | _ => pushBNZ (addrSet s.rbuf other (.BranchZero s.rbuf.length)) other rest
    else .crash

/-- The per-token match of `ShiftAddEngine::generate`. -/
def tokStep (s : GenSt Opcode) (t : BasicOpcode) : GenRes Opcode :=
  match t with
  | .Add => .mid ⟨stepAdd s.rbuf, s.stack⟩
  | .Sub => .mid ⟨stepSub s.rbuf, s.stack⟩
  | .Right => .mid ⟨stepRight s.rbuf, s.stack⟩
  | .Left => .mid ⟨stepLeft s.rbuf, s.stack⟩
  | .Open => .mid ⟨.BranchZero 0 :: s.rbuf, s.rbuf.length :: s.stack⟩
  | .Close => closeStep s
  | .Dot => .mid ⟨.Dot :: s.rbuf, s.stack⟩
  | .Comma => .mid ⟨.Comma :: s.rbuf, s.stack⟩

/-- One token of `ShiftAddEngine::generate`: the per-token match followed
by the redundant-code match. -/
def genStep (s : GenSt Opcode) (t : BasicOpcode) : GenRes Opcode :=
  match tokStep s t with
  | .mid s' =>
    match redundCheck s'.rbuf with
    | .keep r2 => .mid ⟨r2, s'.stack⟩
    | .crash => .crash
  | e => e

def genFold (s : GenSt Opcode) : List BasicOpcode → GenRes Opcode
  | [] => .mid s
  | t :: ts =>
    match genStep s t with
    | .mid s' => genFold s' ts
    | e => e

/-- `ShiftAddEngine::generate`: fold the tokens, push `Exit`, check balance. -/
def generate (ts : List BasicOpcode) : GenOut Opcode :=
  match genFold ⟨[], []⟩ ts with
  | .mid s => if s.stack.isEmpty then .ok ((Opcode.Exit :: s.rbuf).reverse) else .errC .ExtraOpen
  | .errC e => .errC e
  | .crash => .crash

inductive SeekRes
  | okDp (d : Nat)
  | oob (i : Nat)
  | noFuel

/-- The inner `while` loop of the `Seek` arm: `dp` is advanced with
`usize::wrapping_add` only — there is no `% DATA_LEN` in the source — and
each iteration reads the tape through `get_unchecked`. -/
def seekAux (o : Nat) (tape : Nat → Nat) : Nat → Nat → SeekRes
  | 0, _ => .noFuel
  | m + 1, dp =>
    if dp < DATA_LEN then
      if tape dp = 0 then .okDp dp
      else seekAux o tape m ((dp + sext16 o) % W64)
    else .oob dp

/-- One iteration of `ShiftAddEngine::execute`, including the unconditional
`pc += 1` at the bottom of the loop (so a taken branch with target `t`
continues at `t + 1`). -/
def step (m : Nat) (P : List Opcode) (s : VMState) : StepRes :=
  match P.get? s.pc with
  | none => .ubP s.pc
  | some op =>
    match op with
    | .AddRight a i =>
      if s.dp < DATA_LEN then
        .cont ⟨s.pc + 1, (s.dp + sext16 i) % W64 % DATA_LEN,
               updateTape s.tape s.dp ((s.tape s.dp + a) % 256), s.inp, s.out⟩
      else .ubT s.dp
    | .BranchZero t =>
      if s.dp < DATA_LEN then
        .cont ⟨(if s.tape s.dp = 0 then t + 1 else s.pc + 1), s.dp, s.tape, s.inp, s.out⟩
      else .ubT s.dp
    | .BranchNotZero t =>
      if s.dp < DATA_LEN then
        .cont ⟨(if s.tape s.dp = 0 then s.pc + 1 else t + 1), s.dp, s.tape, s.inp, s.out⟩
      else .ubT s.dp
    | .Dot =>
      if s.dp < DATA_LEN then
        .cont ⟨s.pc + 1, s.dp, s.tape, s.inp, s.out ++ [s.tape s.dp]⟩
      else .ubT s.dp
    | .Comma =>
      match s.inp with
      | [] => .done s.tape s.out
      | c :: rest =>
        if s.dp < DATA_LEN then
          .cont ⟨s.pc + 1, s.dp, updateTape s.tape s.dp (c % 256), rest, s.out⟩
        else .ubT s.dp
    | .Clear =>
      if s.dp < DATA_LEN then
        .cont ⟨s.pc + 1, s.dp, updateTape s.tape s.dp 0, s.inp, s.out⟩
      else .ubT s.dp
    | .AddTo o =>
      if s.dp < DATA_LEN then
        .cont ⟨s.pc + 1, s.dp,
          updateTape (updateTape s.tape ((s.dp + sext16 o) % W64 % DATA_LEN)
              ((s.tape ((s.dp + sext16 o) % W64 % DATA_LEN) + s.tape s.dp) % 256)) s.dp 0,
          s.inp, s.out⟩
      else .ubT s.dp
    | .SubTo o =>
      if s.dp < DATA_LEN then
        .cont ⟨s.pc + 1, s.dp,
          updateTape (updateTape s.tape ((s.dp + sext16 o) % W64 % DATA_LEN)
              ((s.tape ((s.dp + sext16 o) % W64 % DATA_LEN) + 256 - s.tape s.dp % 256) % 256)) s.dp 0,
          s.inp, s.out⟩
      else .ubT s.dp
    | .Seek o =>
      match seekAux o s.tape m s.dp with
      | .okDp d => .cont ⟨s.pc + 1, d, s.tape, s.inp, s.out⟩
      | .oob i => .ubT i
      | .noFuel => .noFuel
    | .Exit => .done s.tape s.out

/-- `ShiftAddEngine::execute`, with fuel. -/
def execute : Nat → List Opcode → VMState → Outcome
  | 0, _, _ => .fuelOut
  | n + 1, P, s =>
    match step n P s with
    | .cont s' => execute n P s'
    | .done t o => .halted t o
    | .crash => .crash
    | .ubT i => .ubTape i
    | .ubP i => .ubPc i
    | .noFuel => .fuelOut

end ShiftAddEngine

namespace MergeTokenEngineExtra

/-- `enum Opcode` of mod `merge_token_engine_extra`. -/
inductive Opcode
  | Add (n : Nat)
  | BranchZero (t : Nat)
  | BranchNotZero (t : Nat)
  | Right (o : Nat)
  | Dot
  | Comma
  | Clear
  | AddTo (o : Nat)
  | Seek (o : Nat)
deriving DecidableEq

def stepAdd (r : List Opcode) : List Opcode :=
  match r with
  | .Add p :: rest => .Add ((p + 1) % 256) :: rest
  | _ => .Add 1 :: r

def stepSub (r : List Opcode) : List Opcode :=
  match r with
  | .Add p :: rest => .Add ((p + 255) % 256) :: rest
  | _ => .Add 255 :: r

def stepRight (r : List Opcode) : List Opcode :=
  match r with
  | .Right o :: rest => .Right ((o + 1) % 65536) :: rest
  | _ => .Right 1 :: r

def stepLeft (r : List Opcode) : List Opcode :=
  match r with
  | .Right o :: rest => .Right ((o + 65535) % 65536) :: rest
  | _ => .Right 65535 :: r

/-- Redundant-code match of this engine: it only pops (no panic). -/
def redundCheck (r : List Opcode) : List Opcode :=
  match r with
  | .Add 0 :: rest => rest
  | .Right 0 :: rest => rest
  | .Clear :: .AddTo o :: rest => .AddTo o :: rest
  | _ => r

def pushBNZ (r1 : List Opcode) (other : Nat) (rest : List Nat) : GenRes Opcode :=
  if other < 65536 then .mid ⟨.BranchNotZero other :: r1, rest⟩ else .crash

/-- `LoopClose` of this engine.  Note the `Seek` arm pushes the fused
instruction WITHOUT truncating the matched tail. -/
def closeStep (s : GenSt Opcode) : GenRes Opcode :=
  match s.stack with
  | [] => .errC .ExtraClose
  | other :: rest =>
    if s.rbuf.length < 65536 then
      match addrSet s.rbuf other (.BranchZero s.rbuf.length) with
      | .Add 255 :: .BranchZero _ :: rs => .mid ⟨.Clear :: rs, rest⟩
      | .Right y :: .Add 1 :: .Right x :: .Add 255 :: .BranchZero _ :: rs =>
        if negW x = y then .mid ⟨.AddTo x :: rs, rest⟩
        else pushBNZ (addrSet s.rbuf other (.BranchZero s.rbuf.length)) other rest
      | .Right x :: .BranchZero _ :: _ =>
        .mid ⟨.Seek x :: addrSet s.rbuf other (.BranchZero s.rbuf.length), rest⟩
      | _ => pushBNZ (addrSet s.rbuf other (.BranchZero s.rbuf.length)) other rest
    else .crash

def tokStep (s : GenSt Opcode) (t : BasicOpcode) : GenRes Opcode :=
  match t with
  | .Add => .mid ⟨stepAdd s.rbuf, s.stack⟩
  | .Sub => .mid ⟨stepSub s.rbuf, s.stack⟩
  | .Right => .mid ⟨stepRight s.rbuf, s.stack⟩
  | .Left => .mid ⟨stepLeft s.rbuf, s.stack⟩
  | .Open => .mid ⟨.BranchZero 0 :: s.rbuf, s.rbuf.length :: s.stack⟩
  | .Close => closeStep s
  | .Dot => .mid ⟨.Dot :: s.rbuf, s.stack⟩
  | .Comma => .mid ⟨.Comma :: s.rbuf, s.stack⟩

def genStep (s : GenSt Opcode) (t : BasicOpcode) : GenRes Opcode :=
  match tokStep s t with
  | .mid s' => .mid ⟨redundCheck s'.rbuf, s'.stack⟩
  | e => e

def genFold (s : GenSt Opcode) : List BasicOpcode → GenRes Opcode
  | [] => .mid s
  | t :: ts =>
    match genStep s t with
    | .mid s' => genFold s' ts
    | e => e

/-- `MergeTokenEngineExtra::generate` (no trailing `Exit` in this engine). -/
def generate (ts : List BasicOpcode) : GenOut Opcode :=
  match genFold ⟨[], []⟩ ts with
  | .mid s => if s.stack.isEmpty then .ok s.rbuf.reverse else .errC .ExtraOpen
  | .errC e => .errC e
  | .crash => .crash

end MergeTokenEngineExtra

namespace MergeTokenEngine

/-- `enum Opcode` of mod `merge_token_engine` (the naive structural engine). -/
inductive Opcode
  | Add (n : Nat)
  | BranchZero (t : Nat)
  | BranchNotZero (t : Nat)
  | Right (o : Nat)
  | Dot
  | Comma
deriving DecidableEq

def stepAdd (r : List Opcode) : List Opcode :=
  match r with
  | .Add p :: rest => .Add ((p + 1) % 256) :: rest
  | _ => .Add 1 :: r

def stepSub (r : List Opcode) : List Opcode :=
  match r with
  | .Add p :: rest => .Add ((p + 255) % 256) :: rest
  | _ => .Add 255 :: r

def stepRight (r : List Opcode) : List Opcode :=
  match r with
  | .Right o :: rest => .Right ((o + 1) % 65536) :: rest
  | _ => .Right 1 :: r

def stepLeft (r : List Opcode) : List Opcode :=
  match r with
  | .Right o :: rest => .Right ((o + 65535) % 65536) :: rest
  | _ => .Right 65535 :: r

def redundCheck (r : List Opcode) : List Opcode :=
  match r with
  | .Add 0 :: rest => rest
  | .Right 0 :: rest => rest
  | _ => r

/-- `LoopClose`: patch the placeholder and always push `BranchNotZero`
(the match in the source has only the default arm). -/
def closeStep (s : GenSt Opcode) : GenRes Opcode :=
  match s.stack with
  | [] => .errC .ExtraClose
  | other :: rest =>
    if s.rbuf.length < 65536 then
      if other < 65536 then
        .mid ⟨.BranchNotZero other :: addrSet s.rbuf other (.BranchZero s.rbuf.length), rest⟩
      else .crash
    else .crash

def tokStep (s : GenSt Opcode) (t : BasicOpcode) : GenRes Opcode :=
  match t with
  | .Add => .mid ⟨stepAdd s.rbuf, s.stack⟩
  | .Sub => .mid ⟨stepSub s.rbuf, s.stack⟩
  | .Right => .mid ⟨stepRight s.rbuf, s.stack⟩
  | .Left => .mid ⟨stepLeft s.rbuf, s.stack⟩
  | .Open => .mid ⟨.BranchZero 0 :: s.rbuf, s.rbuf.length :: s.stack⟩
  | .Close => closeStep s
  | .Dot => .mid ⟨.Dot :: s.rbuf, s.stack⟩
  | .Comma => .mid ⟨.Comma :: s.rbuf, s.stack⟩

def genStep (s : GenSt Opcode) (t : BasicOpcode) : GenRes Opcode :=
  match tokStep s t with
  | .mid s' => .mid ⟨redundCheck s'.rbuf, s'.stack⟩
  | e => e

def genFold (s : GenSt Opcode) : List BasicOpcode → GenRes Opcode
  | [] => .mid s
  | t :: ts =>
    match genStep s t with
    | .mid s' => genFold s' ts
    | e => e

def generate (ts : List BasicOpcode) : GenOut Opcode :=
  match genFold ⟨[], []⟩ ts with
  | .mid s => if s.stack.isEmpty then .ok s.rbuf.reverse else .errC .ExtraOpen
  | .errC e => .errC e
  | .crash => .crash

/-- One iteration of `MergeTokenEngine::execute`.  All tape accesses are
bounds-checked `data[dp]` indexing, so an out-of-range `dp` is a panic
(`crash`), and `Comma` on exhausted input is `unwrap()` on `None`, also a
panic.  Running off the end of the opcode array breaks the loop. -/
def step (P : List Opcode) (s : VMState) : StepRes :=
  match P.get? s.pc with
  | none => .done s.tape s.out
  | some op =>
    match op with
    | .Add i =>
      if s.dp < DATA_LEN then
        .cont ⟨s.pc + 1, s.dp, updateTape s.tape s.dp ((s.tape s.dp + i) % 256), s.inp, s.out⟩
      else .crash
    | .BranchZero t =>
      if s.dp < DATA_LEN then
        .cont ⟨(if s.tape s.dp = 0 then t + 1 else s.pc + 1), s.dp, s.tape, s.inp, s.out⟩
      else .crash
    | .BranchNotZero t =>
      if s.dp < DATA_LEN then
        .cont ⟨(if s.tape s.dp = 0 then s.pc + 1 else t + 1), s.dp, s.tape, s.inp, s.out⟩
      else .crash
    | .Right o =>
      .cont ⟨s.pc + 1, (s.dp + sext16 o) % W64, s.tape, s.inp, s.out⟩
    | .Dot =>
      if s.dp < DATA_LEN then
        .cont ⟨s.pc + 1, s.dp, s.tape, s.inp, s.out ++ [s.tape s.dp]⟩
      else .crash
    | .Comma =>
      match s.inp with
      | [] => .crash
      | c :: rest =>
        if s.dp < DATA_LEN then
          .cont ⟨s.pc + 1, s.dp, updateTape s.tape s.dp (c % 256), rest, s.out⟩
        else .crash

def execute : Nat → List Opcode → VMState → Outcome
  | 0, _, _ => .fuelOut
  | n + 1, P, s =>
    match step P s with
    | .cont s' => execute n P s'
    | .done t o => .halted t o
    | .crash => .crash
    | .ubT i => .ubTape i
    | .ubP i => .ubPc i
    | .noFuel => .fuelOut

end MergeTokenEngine

/-- Tape with cell 0 = 7, cell 1 = 3, all other cells 0. -/
def tape73 : Nat → Nat := updateTape (updateTape zeroTape 0 7) 1 3

/-- Tape with cell 0 = 0, cell 1 = 3, all other cells 0. -/
def tape03 : Nat → Nat := updateTape zeroTape 1 3

namespace ShiftAddEngine

/-- Opcodes that are neither `BranchZero` nor `BranchNotZero`. -/
def nonBranch : Opcode → Prop := fun o =>
  match o with
  | .BranchZero _ => False
  | .BranchNotZero _ => False
  | _ => True

/-- Compiler invariant tying the open-loop stack to the buffer: stack
addresses are strictly decreasing placeholders (`BranchZero 0`), and every
already-resolved `BranchZero` / `BranchNotZero` pair points mutually at
each other. -/
structure Inv (b : List Opcode) (st : List Nat) : Prop where
  sorted : st.Pairwise (fun x y => y < x)
  stackLt : ∀ a ∈ st, a < b.length
  stackBZ : ∀ a ∈ st, addrGet b a = some (.BranchZero 0)
  bz : ∀ a t, addrGet b a = some (.BranchZero t) → a ∉ st →
    a < t ∧ addrGet b t = some (.BranchNotZero a)
  bnz : ∀ a t, addrGet b a = some (.BranchNotZero t) →
    t < a ∧ t ∉ st ∧ addrGet b t = some (.BranchZero a)

end ShiftAddEngine

/-! ## Generic lemmas about the address view of the reversed buffer -/

theorem addrGet_lt {α : Type} {l : List α} {a : Nat} {x : α}
    (h : addrGet l a = some x) : a < l.length := by
  induction l with
  | nil => simp [addrGet] at h
  | cons y l ih =>
    simp only [addrGet] at h
    split at h
    · rename_i he
      simp only [List.length_cons]
      omega
    · have := ih h
      simp only [List.length_cons]
      omega

theorem addrGet_cons_self {α : Type} (x : α) (l : List α) :
    addrGet (x :: l) l.length = some x := by
  simp [addrGet]

theorem addrGet_cons_of_lt {α : Type} (x : α) {l : List α} {a : Nat}
    (h : a < l.length) : addrGet (x :: l) a = addrGet l a := by
  simp only [addrGet]
  rw [if_neg (by omega)]

theorem length_addrSet {α : Type} (l : List α) (a : Nat) (v : α) :
    (addrSet l a v).length = l.length := by
  induction l with
  | nil => rfl
  | cons x l ih =>
    simp only [addrSet]
    split <;> simp [ih]

theorem addrGet_addrSet_self {α : Type} {l : List α} {a : Nat} (v : α)
    (h : a < l.length) : addrGet (addrSet l a v) a = some v := by
  induction l with
  | nil => simp at h
  | cons x l ih =>
    simp only [addrSet]
    split
    · rename_i he
      subst he
      simp [addrGet]
    · rename_i he
      have ha : a < l.length := by
        simp only [List.length_cons] at h
        omega
      rw [addrGet_cons_of_lt _ (by simpa [length_addrSet] using ha)]
      exact ih ha

theorem addrGet_addrSet_ne {α : Type} {l : List α} {a b : Nat} (v : α)
    (h : b ≠ a) : addrGet (addrSet l a v) b = addrGet l b := by
  induction l with
  | nil => rfl
  | cons x l ih =>
    simp only [addrSet]
    split
    · rename_i he
      subst he
      simp only [addrGet]
      split
      · omega
      · rfl
    · simp only [addrGet, length_addrSet]
      split
      · rfl
      · exact ih

theorem addrGet_eq_reverse_get {α : Type} (l : List α) (a : Nat) :
    l.reverse.get? a = addrGet l a := by
  induction l with
  | nil => rfl
  | cons x l ih =>
    simp only [List.reverse_cons, addrGet]
    split
    · rename_i he
      subst he
      rw [← List.length_reverse]
      exact List.get?_concat_length _ _
    · rename_i he
      rcases Nat.lt_or_ge a l.length with hlt | hge
      · rw [List.get?_append (by simpa using hlt)]
        exact ih
      · have h1 : l.reverse.length ≤ a := by simpa using (by omega : l.length ≤ a)
        have h2 : (l.reverse ++ [x]).length ≤ a := by
          simp only [List.length_append, List.length_reverse, List.length_singleton]
          omega
        rw [List.get?_eq_none.2 h2]
        rw [← ih, List.get?_eq_none.2 h1]

/-! ## Claim theorems: concrete executions and step semantics -/

set_option maxRecDepth 40000

/-- Claim C1 (code bug).  The spec says every pointer-moving instruction,
including the fused `Seek`, wraps the data pointer modulo the tape length.
In the code, the `Seek` arm of `ShiftAddEngine::execute` advances `dp`
with `usize::wrapping_add` only, without the `% DATA_LEN` that the
`AddRight` arm applies; on the program teaching `+[<]` the pointer becomes
2 ^ 64 - 1 and the unchecked tape read is out of bounds, instead of the
wrapped address 65535 the spec requires. -/
theorem C1_seek_does_not_wrap :
    ShiftAddEngine.generate [.Add, .Open, .Left, .Close] =
      .ok [.AddRight 1 0, .Seek 65535, .Exit] ∧
    ShiftAddEngine.execute 5 [.AddRight 1 0, .Seek 65535, .Exit] ⟨0, 0, zeroTape, [], []⟩ =
      .ubTape (2 ^ 64 - 1) ∧
    DATA_LEN ≤ 2 ^ 64 - 1 :=
  ⟨by decide, by rfl, by decide⟩

/-- Claim C2 (corrected).  Executing `Comma` with the input exhausted does
not abort the run fatally in the engine `main` uses: `ShiftAddEngine`
breaks out of the VM loop and the run completes as a normal halt, while
`MergeTokenEngine` panics on `unwrap()`. -/
theorem C2_input_exhaustion_behaviour :
    (∀ (m : Nat) (P : List ShiftAddEngine.Opcode) (s : VMState),
       P.get? s.pc = some .Comma → s.inp = [] →
       ShiftAddEngine.step m P s = .done s.tape s.out) ∧
    (∀ (P : List MergeTokenEngine.Opcode) (s : VMState),
       P.get? s.pc = some .Comma → s.inp = [] →
       MergeTokenEngine.step P s = .crash) := by
  constructor
  · intro m P s h1 h2
    simp only [ShiftAddEngine.step, h1, h2]
  · intro P s h1 h2
    simp only [MergeTokenEngine.step, h1, h2]

/-- Witness for C2: concrete one-instruction programs. -/
theorem C2_witness :
    ShiftAddEngine.step 0 [.Comma] ⟨0, 0, zeroTape, [], []⟩ = .done zeroTape [] ∧
    MergeTokenEngine.step [.Comma] ⟨0, 0, zeroTape, [], []⟩ = .crash :=
  ⟨C2_input_exhaustion_behaviour.1 0 _ _ rfl rfl,
   C2_input_exhaustion_behaviour.2 _ _ rfl rfl⟩

/-- Counterexample for C2 as stated: the source `,.` under empty input is
compiled by `ShiftAddEngine` and its run terminates as a normal halt
(outcome `halted`, not a fatal error), with the `Dot` after the `Comma`
never executed (output is empty). -/
theorem C2_counterexample :
    ShiftAddEngine.generate [.Comma, .Dot] = .ok [.Comma, .Dot, .Exit] ∧
    ShiftAddEngine.execute 3 [.Comma, .Dot, .Exit] ⟨0, 0, zeroTape, [], []⟩ =
      .halted zeroTape [] :=
  ⟨by decide, by rfl⟩

/-- Claim C3 (code bug).  The spec says a coalesced instruction whose
delta/offset becomes 0 is removed and compilation continues, so 256 `+`
tokens compile to the empty program.  The `MergeTokenEngine` variants do
exactly that, but `ShiftAddEngine::generate` pops the dead
`AddRight(0, 0)` and then executes `panic!()`, so on 256 `+` tokens the
engine `main` runs crashes instead of producing a program. -/
theorem C3_cancellation_panics :
    ShiftAddEngine.generate (List.replicate 256 .Add) = .crash ∧
    MergeTokenEngineExtra.generate (List.replicate 256 .Add) = .ok [] ∧
    MergeTokenEngine.generate (List.replicate 256 .Add) = .ok [] :=
  ⟨by decide, by decide, by decide⟩

/-- Counterexample for C4 as stated: the loop `[++]`, whose body is the
single cell delta +2, IS fused to `Clear` by `ShiftAddEngine::generate`
(the pattern is `AddRight(_, 0)` with a wildcard delta). -/
theorem C4_counterexample :
    ShiftAddEngine.generate [.Open, .Add, .Add, .Close] = .ok [.Clear, .Exit] := by
  decide

/-- Claim C4 (corrected).  `ShiftAddEngine` fuses a loop to `Clear`
whenever the body is one `AddRight(d, 0)` for ANY delta `d` (both `[-]`
and `[++]` become `Clear`); only `MergeTokenEngineExtra` restricts the
fusion to a body of exactly `Add(255)`, keeping `[++]` a structural
loop. -/
theorem C4_clear_fusion :
    ShiftAddEngine.generate [.Open, .Sub, .Close] = .ok [.Clear, .Exit] ∧
    ShiftAddEngine.generate [.Open, .Add, .Add, .Close] = .ok [.Clear, .Exit] ∧
    MergeTokenEngineExtra.generate [.Open, .Sub, .Close] = .ok [.Clear] ∧
    MergeTokenEngineExtra.generate [.Open, .Add, .Add, .Close] =
      .ok [.BranchZero 2, .Add 2, .BranchNotZero 0] :=
  ⟨by decide, by decide, by decide, by decide⟩

/-- Counterexample for C5 as stated: the loop `[+>]`, whose body mutates
the current cell before moving, IS fused to `Seek(1)` by
`ShiftAddEngine::generate` (the pattern is `AddRight(_, x)` with a
wildcard delta, so cell mutation does not block the fusion). -/
theorem C5_counterexample :
    ShiftAddEngine.generate [.Open, .Add, .Right, .Close] = .ok [.Seek 1, .Exit] := by
  decide

/-- Claim C5 (corrected).  `ShiftAddEngine` emits `Seek(x)` whenever the
loop body is one `AddRight(a, x)` with `x` nonzero — for any cell delta
`a` — and does truncate the matched tail.  `MergeTokenEngineExtra` fuses
only a pure `Right(x)` body but appends `Seek(x)` WITHOUT truncating: the
placeholder `BranchZero` and the `Right` stay in the program. -/
theorem C5_seek_fusion :
    ShiftAddEngine.generate [.Open, .Right, .Close] = .ok [.Seek 1, .Exit] ∧
    ShiftAddEngine.generate [.Open, .Add, .Right, .Close] = .ok [.Seek 1, .Exit] ∧
    MergeTokenEngineExtra.generate [.Open, .Right, .Close] =
      .ok [.BranchZero 2, .Right 1, .Seek 1] :=
  ⟨by decide, by decide, by decide⟩

/-- Claim C6 (code bug).  The balanced, idiom-free source `,` under empty
input separates the engines: the fused `ShiftAddEngine` run terminates as
a normal halt with empty output and untouched tape, while the naive
structural `MergeTokenEngine` run panics; the outputs and final states
are not identical, refuting the equivalence for this program. -/
theorem C6_engines_diverge_on_eof :
    ShiftAddEngine.generate [.Comma] = .ok [.Comma, .Exit] ∧
    ShiftAddEngine.execute 2 [.Comma, .Exit] ⟨0, 0, zeroTape, [], []⟩ = .halted zeroTape [] ∧
    MergeTokenEngine.generate [.Comma] = .ok [.Comma] ∧
    MergeTokenEngine.execute 1 [.Comma] ⟨0, 0, zeroTape, [], []⟩ = .crash :=
  ⟨by decide, by rfl, by decide, by rfl⟩

/-- Claim C8 (corrected).  The VM step for `BranchZero(t)` assigns `pc`
and then still performs the unconditional `pc += 1` at the bottom of the
loop: when the cell is zero the next instruction executed is at `t + 1`,
not at `t`; otherwise execution falls through to `pc + 1`. -/
theorem C8_branchzero_step :
    ∀ (m : Nat) (P : List ShiftAddEngine.Opcode) (s : VMState) (t : Nat),
      P.get? s.pc = some (.BranchZero t) → s.dp < DATA_LEN →
      ShiftAddEngine.step m P s =
        .cont ⟨(if s.tape s.dp = 0 then t + 1 else s.pc + 1), s.dp, s.tape, s.inp, s.out⟩ := by
  intro m P s t h1 h2
  simp only [ShiftAddEngine.step, h1]
  rw [if_pos h2]

/-- Witness for C8: the compiled form of the source `[.]`. -/
theorem C8_witness :
    ShiftAddEngine.step 0 [.BranchZero 2, .Dot, .BranchNotZero 0, .Exit]
      ⟨0, 0, zeroTape, [], []⟩ = .cont ⟨3, 0, zeroTape, [], []⟩ :=
  C8_branchzero_step 0 _ _ 2 rfl (by decide)

/-- Counterexample for C8 as stated: in the program compiled from `[.]`
the taken `BranchZero 2` leads to `pc = 3`, not to its target address 2
(the matching `BranchNotZero` is skipped by the unconditional
increment). -/
theorem C8_counterexample :
    ShiftAddEngine.generate [.Open, .Dot, .Close] =
      .ok [.BranchZero 2, .Dot, .BranchNotZero 0, .Exit] ∧
    ShiftAddEngine.step 0 [.BranchZero 2, .Dot, .BranchNotZero 0, .Exit]
      ⟨0, 0, zeroTape, [], []⟩ = .cont ⟨3, 0, zeroTape, [], []⟩ ∧
    (3 : Nat) ≠ 2 :=
  ⟨by decide, by rfl, by decide⟩

/-- Claim C9 (confirmed).  `[->+<]` compiles to the single fused
instruction `AddTo(1)` (plus the `Exit` terminator that `ShiftAddEngine`
appends to every program; `MergeTokenEngineExtra` yields exactly
`[AddTo(1)]`).  Executing `AddTo(o)` adds the current cell into the cell
at wrapped offset `o` and zeroes the current cell; with cells (7, 3) the
result is (0, 10), with cells (0, 3) it is a no-op, and the unfused
structural loop compiled by `MergeTokenEngine` computes the same final
cells on the same input. -/
theorem C9_addto_fusion :
    (∀ (m : Nat) (P : List ShiftAddEngine.Opcode) (s : VMState) (o : Nat),
       P.get? s.pc = some (.AddTo o) → s.dp < DATA_LEN →
       ShiftAddEngine.step m P s =
         .cont ⟨s.pc + 1, s.dp,
           updateTape (updateTape s.tape ((s.dp + sext16 o) % W64 % DATA_LEN)
               ((s.tape ((s.dp + sext16 o) % W64 % DATA_LEN) + s.tape s.dp) % 256)) s.dp 0,
           s.inp, s.out⟩) ∧
    ShiftAddEngine.generate [.Open, .Sub, .Right, .Add, .Left, .Close] = .ok [.AddTo 1, .Exit] ∧
    MergeTokenEngineExtra.generate [.Open, .Sub, .Right, .Add, .Left, .Close] = .ok [.AddTo 1] ∧
    cellOf (ShiftAddEngine.execute 3 [.AddTo 1, .Exit] ⟨0, 0, tape73, [], []⟩) 0 = some 0 ∧
    cellOf (ShiftAddEngine.execute 3 [.AddTo 1, .Exit] ⟨0, 0, tape73, [], []⟩) 1 = some 10 ∧
    outOf (ShiftAddEngine.execute 3 [.AddTo 1, .Exit] ⟨0, 0, tape73, [], []⟩) = some [] ∧
    cellOf (ShiftAddEngine.execute 3 [.AddTo 1, .Exit] ⟨0, 0, tape03, [], []⟩) 0 = some 0 ∧
    cellOf (ShiftAddEngine.execute 3 [.AddTo 1, .Exit] ⟨0, 0, tape03, [], []⟩) 1 = some 3 ∧
    MergeTokenEngine.generate [.Open, .Sub, .Right, .Add, .Left, .Close] =
      .ok [.BranchZero 5, .Add 255, .Right 1, .Add 1, .Right 65535, .BranchNotZero 0] ∧
    cellOf (MergeTokenEngine.execute 60
      [.BranchZero 5, .Add 255, .Right 1, .Add 1, .Right 65535, .BranchNotZero 0]
      ⟨0, 0, tape73, [], []⟩) 0 = some 0 ∧
    cellOf (MergeTokenEngine.execute 60
      [.BranchZero 5, .Add 255, .Right 1, .Add 1, .Right 65535, .BranchNotZero 0]
      ⟨0, 0, tape73, [], []⟩) 1 = some 10 ∧
    outOf (MergeTokenEngine.execute 60
      [.BranchZero 5, .Add 255, .Right 1, .Add 1, .Right 65535, .BranchNotZero 0]
      ⟨0, 0, tape73, [], []⟩) = some [] := by
  refine ⟨?_, by decide, by decide, by rfl, by rfl, by rfl, by rfl, by rfl, by decide,
    by rfl, by rfl, by rfl⟩
  intro m P s o h1 h2
  simp only [ShiftAddEngine.step, h1]
  rw [if_pos h2]

/-- Witness for C9: one `AddTo 1` step on the tape (7, 3). -/
theorem C9_witness :
    ShiftAddEngine.step 0 [.AddTo 1, .Exit] ⟨0, 0, tape73, [], []⟩ =
      .cont ⟨1, 0, updateTape (updateTape tape73 1 10) 0 0, [], []⟩ :=
  C9_addto_fusion.1 0 _ _ 1 rfl (by decide)

/-! ## Invariant machinery for the branch-target theorem (claim C7) -/

namespace ShiftAddEngine

theorem nonBranch_ne_bz {x : Opcode} (hx : nonBranch x) (t : Nat) : x ≠ .BranchZero t := by
  intro h
  subst h
  simp [nonBranch] at hx

theorem nonBranch_ne_bnz {x : Opcode} (hx : nonBranch x) (t : Nat) : x ≠ .BranchNotZero t := by
  intro h
  subst h
  simp [nonBranch] at hx

theorem inv_nil : Inv [] [] :=
  ⟨List.Pairwise.nil, by simp, by simp,
   by intro a t h; simp [addrGet] at h,
   by intro a t h; simp [addrGet] at h⟩

/-- Dropping a freshly pushed non-branch head preserves the invariant. -/
theorem inv_uncons {b : List Opcode} {st : List Nat} {x : Opcode}
    (h : Inv (x :: b) st) (hx : nonBranch x) : Inv b st := by
  have hlen : ∀ {a : Nat} {y : Opcode}, addrGet b a = some y → a < b.length :=
    fun h => addrGet_lt h
  constructor
  · exact h.sorted
  · intro a ha
    have h1 := h.stackBZ a ha
    have h2 : a ≠ b.length := by
      intro he
      subst he
      rw [addrGet_cons_self] at h1
      exact nonBranch_ne_bz hx 0 (Option.some.inj h1)
    have h3 := h.stackLt a ha
    simp only [List.length_cons] at h3
    omega
  · intro a ha
    have h1 := h.stackBZ a ha
    have h2 : a ≠ b.length := by
      intro he
      subst he
      rw [addrGet_cons_self] at h1
      exact nonBranch_ne_bz hx 0 (Option.some.inj h1)
    have h3 := h.stackLt a ha
    have h4 : a < b.length := by
      simp only [List.length_cons] at h3
      omega
    rw [addrGet_cons_of_lt _ h4] at h1
    exact h1
  · intro a t hat hna
    have ha : a < b.length := hlen hat
    have h1 : addrGet (x :: b) a = some (.BranchZero t) := by
      rw [addrGet_cons_of_lt _ ha]
      exact hat
    obtain ⟨h2, h3⟩ := h.bz a t h1 hna
    have ht : t ≠ b.length := by
      intro he
      subst he
      rw [addrGet_cons_self] at h3
      exact nonBranch_ne_bnz hx a (Option.some.inj h3)
    have ht2 : t < b.length + 1 := by
      have := addrGet_lt h3
      simpa using this
    have ht3 : t < b.length := by omega
    rw [addrGet_cons_of_lt _ ht3] at h3
    exact ⟨h2, h3⟩
  · intro a t hat
    have ha : a < b.length := hlen hat
    have h1 : addrGet (x :: b) a = some (.BranchNotZero t) := by
      rw [addrGet_cons_of_lt _ ha]
      exact hat
    obtain ⟨h2, h3, h4⟩ := h.bnz a t h1
    have ht3 : t < b.length := by omega
    rw [addrGet_cons_of_lt _ ht3] at h4
    exact ⟨h2, h3, h4⟩

/-- Pushing a non-branch instruction preserves the invariant. -/
theorem inv_cons_nonbranch {b : List Opcode} {st : List Nat} (h : Inv b st) {x : Opcode}
    (hx : nonBranch x) : Inv (x :: b) st := by
  constructor
  · exact h.sorted
  · intro a ha
    have := h.stackLt a ha
    simp only [List.length_cons]
    omega
  · intro a ha
    rw [addrGet_cons_of_lt _ (h.stackLt a ha)]
    exact h.stackBZ a ha
  · intro a t hat hna
    rcases eq_or_ne a b.length with rfl | hne
    · rw [addrGet_cons_self] at hat
      exact absurd (Option.some.inj hat) (nonBranch_ne_bz hx t)
    · have halt : a < b.length := by
        have := addrGet_lt hat
        simp only [List.length_cons] at this
        omega
      rw [addrGet_cons_of_lt _ halt] at hat
      obtain ⟨h1, h2⟩ := h.bz a t hat hna
      exact ⟨h1, by rw [addrGet_cons_of_lt _ (addrGet_lt h2)]; exact h2⟩
  · intro a t hat
    rcases eq_or_ne a b.length with rfl | hne
    · rw [addrGet_cons_self] at hat
      exact absurd (Option.some.inj hat) (nonBranch_ne_bnz hx t)
    · have halt : a < b.length := by
        have := addrGet_lt hat
        simp only [List.length_cons] at this
        omega
      rw [addrGet_cons_of_lt _ halt] at hat
      obtain ⟨h1, h2, h3⟩ := h.bnz a t hat
      exact ⟨h1, h2, by rw [addrGet_cons_of_lt _ (addrGet_lt h3)]; exact h3⟩

/-- Rewriting the non-branch head in place preserves the invariant. -/
theorem inv_replace_head {b : List Opcode} {st : List Nat} {x y : Opcode}
    (h : Inv (x :: b) st) (hx : nonBranch x) (hy : nonBranch y) : Inv (y :: b) st :=
  inv_cons_nonbranch (inv_uncons h hx) hy

/-- `LoopOpen`: push the placeholder and the address. -/
theorem inv_open {b : List Opcode} {st : List Nat} (h : Inv b st) :
    Inv (.BranchZero 0 :: b) (b.length :: st) := by
  constructor
  · exact List.pairwise_cons.2 ⟨fun a ha => h.stackLt a ha, h.sorted⟩
  · intro a ha
    rcases List.mem_cons.1 ha with rfl | ha
    · simp
    · have := h.stackLt a ha
      simp only [List.length_cons]
      omega
  · intro a ha
    rcases List.mem_cons.1 ha with rfl | ha
    · exact addrGet_cons_self _ _
    · rw [addrGet_cons_of_lt _ (h.stackLt a ha)]
      exact h.stackBZ a ha
  · intro a t hat hna
    have hne : a ≠ b.length := fun hx => hna (hx ▸ List.mem_cons_self _ _)
    have halt : a < b.length := by
      have := addrGet_lt hat
      simp only [List.length_cons] at this
      omega
    rw [addrGet_cons_of_lt _ halt] at hat
    have hna2 : a ∉ st := fun hx => hna (List.mem_cons_of_mem _ hx)
    obtain ⟨h1, h2⟩ := h.bz a t hat hna2
    exact ⟨h1, by rw [addrGet_cons_of_lt _ (addrGet_lt h2)]; exact h2⟩
  · intro a t hat
    have hne : a ≠ b.length := by
      intro hx
      subst hx
      rw [addrGet_cons_self] at hat
      simp at hat
    have halt : a < b.length := by
      have := addrGet_lt hat
      simp only [List.length_cons] at this
      omega
    rw [addrGet_cons_of_lt _ halt] at hat
    obtain ⟨h1, h2, h3⟩ := h.bnz a t hat
    have ht : t < b.length := by omega
    refine ⟨h1, ?_, by rw [addrGet_cons_of_lt _ ht]; exact h3⟩
    intro hmem
    rcases List.mem_cons.1 hmem with rfl | hmem
    · omega
    · exact h2 hmem

theorem inv_stepAdd {b : List Opcode} {st : List Nat} (h : Inv b st) : Inv (stepAdd b) st := by
  unfold stepAdd
  split
  · rename_i p rest
    exact inv_replace_head h trivial trivial
  · exact inv_cons_nonbranch h trivial

theorem inv_stepSub {b : List Opcode} {st : List Nat} (h : Inv b st) : Inv (stepSub b) st := by
  unfold stepSub
  split
  · rename_i p rest
    exact inv_replace_head h trivial trivial
  · exact inv_cons_nonbranch h trivial

theorem inv_stepRight {b : List Opcode} {st : List Nat} (h : Inv b st) : Inv (stepRight b) st := by
  unfold stepRight
  split
  · rename_i p q rest
    exact inv_replace_head h trivial trivial
  · exact inv_cons_nonbranch h trivial

theorem inv_stepLeft {b : List Opcode} {st : List Nat} (h : Inv b st) : Inv (stepLeft b) st := by
  unfold stepLeft
  split
  · rename_i p q rest
    exact inv_replace_head h trivial trivial
  · exact inv_cons_nonbranch h trivial

end ShiftAddEngine

theorem addrGet_cons_cases {α : Type} (x : α) (l : List α) (a : Nat) :
    addrGet (x :: l) a = if a = l.length then some x else addrGet l a := rfl

theorem addrGet_cons2_cases {α : Type} (x y : α) (l : List α) (a : Nat) :
    addrGet (x :: y :: l) a =
      if a = l.length + 1 then some x
      else if a = l.length then some y
      else addrGet l a := by
  simp only [addrGet, List.length_cons]

theorem addrGet_cons3_cases {α : Type} (x y z : α) (l : List α) (a : Nat) :
    addrGet (x :: y :: z :: l) a =
      if a = l.length + 2 then some x
      else if a = l.length + 1 then some y
      else if a = l.length then some z
      else addrGet l a := by
  simp only [addrGet, List.length_cons]

namespace ShiftAddEngine

/-- Collapsing `.., AddRight(_, 0), Clear` to `.., Clear` preserves the
invariant. -/
theorem inv_collapse {rest : List Opcode} {st : List Nat} {d : Nat}
    (h : Inv (.Clear :: .AddRight d 0 :: rest) st) : Inv (.Clear :: rest) st := by
  have hC : addrGet (Opcode.Clear :: .AddRight d 0 :: rest) (rest.length + 1) = some .Clear := by
    rw [addrGet_cons2_cases, if_pos rfl]
  have hA : addrGet (Opcode.Clear :: .AddRight d 0 :: rest) rest.length =
      some (.AddRight d 0) := by
    rw [addrGet_cons2_cases, if_neg (by omega), if_pos rfl]
  have htr : ∀ k, k < rest.length →
      addrGet (Opcode.Clear :: .AddRight d 0 :: rest) k = addrGet rest k := by
    intro k hk
    rw [addrGet_cons2_cases, if_neg (by omega), if_neg (by omega)]
  have hstlt : ∀ a ∈ st, a < rest.length := by
    intro a ha
    have h1 := h.stackBZ a ha
    have h2 := h.stackLt a ha
    have h3 : a ≠ rest.length + 1 := by
      intro he
      subst he
      rw [hC] at h1
      simp at h1
    have h4 : a ≠ rest.length := by
      intro he
      subst he
      rw [hA] at h1
      simp at h1
    simp only [List.length_cons] at h2
    omega
  constructor
  · exact h.sorted
  · intro a ha
    have := hstlt a ha
    simp only [List.length_cons]
    omega
  · intro a ha
    have h1 := h.stackBZ a ha
    have h2 := hstlt a ha
    rw [htr a h2] at h1
    rw [addrGet_cons_cases, if_neg (by omega)]
    exact h1
  · intro a t hat hna
    rw [addrGet_cons_cases] at hat
    split at hat
    · simp at hat
    · rename_i hane
      have halt : a < rest.length := addrGet_lt hat
      rw [← htr a halt] at hat
      obtain ⟨h1, h2⟩ := h.bz a t hat hna
      have htlt : t < rest.length + 2 := by
        have := addrGet_lt h2
        simp only [List.length_cons] at this
        omega
      have ht1 : t ≠ rest.length + 1 := by
        intro he
        subst he
        rw [hC] at h2
        simp at h2
      have ht2 : t ≠ rest.length := by
        intro he
        subst he
        rw [hA] at h2
        simp at h2
      have ht3 : t < rest.length := by omega
      rw [htr t ht3] at h2
      refine ⟨h1, ?_⟩
      rw [addrGet_cons_cases, if_neg (by omega)]
      exact h2
  · intro a t hat
    rw [addrGet_cons_cases] at hat
    split at hat
    · simp at hat
    · rename_i hane
      have halt : a < rest.length := addrGet_lt hat
      rw [← htr a halt] at hat
      obtain ⟨h1, h2, h3⟩ := h.bnz a t hat
      have ht3 : t < rest.length := by omega
      rw [htr t ht3] at h3
      refine ⟨h1, h2, ?_⟩
      rw [addrGet_cons_cases, if_neg (by omega)]
      exact h3

/-- The redundant-code check preserves the invariant when it keeps a buffer. -/
theorem inv_redund {b : List Opcode} {st : List Nat} {b' : List Opcode}
    (h : Inv b st) (he : redundCheck b = .keep b') : Inv b' st := by
  unfold redundCheck at he
  split at he
  · cases he
    exact inv_collapse h
  · cases he
  · cases he
  · cases he
    exact h

/-- In a matched 2-instruction tail `.., BranchZero, w` of the patched
buffer, the `BranchZero` is necessarily the placeholder that was just
patched: its address is the popped `other`. -/
theorem close_locate2 {b : List Opcode} {rest : List Nat} {other : Nat}
    (h : Inv b (other :: rest))
    {w : Opcode} {t' : Nat} {rs : List Opcode}
    (hw : nonBranch w)
    (hshape : addrSet b other (.BranchZero b.length) = w :: .BranchZero t' :: rs) :
    other = rs.length ∧ b.length = rs.length + 2 := by
  have hol : other < b.length := h.stackLt other (List.mem_cons_self _ _)
  have hblen : b.length = rs.length + 2 := by
    have h1 : (addrSet b other (.BranchZero b.length)).length = b.length :=
      length_addrSet _ _ _
    rw [hshape] at h1
    simp only [List.length_cons] at h1
    omega
  have hr1o : addrGet (addrSet b other (.BranchZero b.length)) other =
      some (.BranchZero b.length) := addrGet_addrSet_self _ hol
  rw [hshape, addrGet_cons2_cases] at hr1o
  by_cases ho1 : other = rs.length + 1
  · rw [if_pos ho1] at hr1o
    exact absurd (Option.some.inj hr1o) (nonBranch_ne_bz hw _)
  rw [if_neg ho1] at hr1o
  by_cases ho2 : other = rs.length
  · exact ⟨ho2, hblen⟩
  rw [if_neg ho2] at hr1o
  exfalso
  have hbn : addrGet b rs.length = some (.BranchZero t') := by
    have hx := addrGet_addrSet_ne (l := b) (a := other) (b := rs.length)
      (.BranchZero b.length) (by omega)
    rw [hshape, addrGet_cons2_cases, if_neg (by omega), if_pos rfl] at hx
    exact hx.symm
  have hnotin : rs.length ∉ (other :: rest) := by
    intro hmem
    rcases List.mem_cons.1 hmem with he | hmem
    · omega
    · have := (List.pairwise_cons.1 h.sorted).1 _ hmem
      omega
  obtain ⟨hlt, hp⟩ := h.bz rs.length t' hbn hnotin
  have ht'lt : t' < b.length := addrGet_lt hp
  have ht'eq : t' = rs.length + 1 := by omega
  subst ht'eq
  have hwx : addrGet b (rs.length + 1) = some w := by
    have hx := addrGet_addrSet_ne (l := b) (a := other) (b := rs.length + 1)
      (.BranchZero b.length) (by omega)
    rw [hshape, addrGet_cons2_cases, if_pos rfl] at hx
    exact hx.symm
  rw [hwx] at hp
  exact absurd (Option.some.inj hp) (nonBranch_ne_bnz hw _)

/-- Same as `close_locate2` for a matched 3-instruction tail. -/
theorem close_locate3 {b : List Opcode} {rest : List Nat} {other : Nat}
    (h : Inv b (other :: rest))
    {w1 w2 : Opcode} {t' : Nat} {rs : List Opcode}
    (hw1 : nonBranch w1) (hw2 : nonBranch w2)
    (hshape : addrSet b other (.BranchZero b.length) = w1 :: w2 :: .BranchZero t' :: rs) :
    other = rs.length ∧ b.length = rs.length + 3 := by
  have hol : other < b.length := h.stackLt other (List.mem_cons_self _ _)
  have hblen : b.length = rs.length + 3 := by
    have h1 : (addrSet b other (.BranchZero b.length)).length = b.length :=
      length_addrSet _ _ _
    rw [hshape] at h1
    simp only [List.length_cons] at h1
    omega
  have hr1o : addrGet (addrSet b other (.BranchZero b.length)) other =
      some (.BranchZero b.length) := addrGet_addrSet_self _ hol
  rw [hshape, addrGet_cons3_cases] at hr1o
  by_cases ho1 : other = rs.length + 2
  · rw [if_pos ho1] at hr1o
    exact absurd (Option.some.inj hr1o) (nonBranch_ne_bz hw1 _)
  rw [if_neg ho1] at hr1o
  by_cases ho2 : other = rs.length + 1
  · rw [if_pos ho2] at hr1o
    exact absurd (Option.some.inj hr1o) (nonBranch_ne_bz hw2 _)
  rw [if_neg ho2] at hr1o
  by_cases ho3 : other = rs.length
  · exact ⟨ho3, hblen⟩
  rw [if_neg ho3] at hr1o
  exfalso
  have hbn : addrGet b rs.length = some (.BranchZero t') := by
    have hx := addrGet_addrSet_ne (l := b) (a := other) (b := rs.length)
      (.BranchZero b.length) (by omega)
    rw [hshape, addrGet_cons3_cases, if_neg (by omega), if_neg (by omega), if_pos rfl] at hx
    exact hx.symm
  have hnotin : rs.length ∉ (other :: rest) := by
    intro hmem
    rcases List.mem_cons.1 hmem with he | hmem
    · omega
    · have := (List.pairwise_cons.1 h.sorted).1 _ hmem
      omega
  obtain ⟨hlt, hp⟩ := h.bz rs.length t' hbn hnotin
  have ht'lt : t' < b.length := addrGet_lt hp
  by_cases he1 : t' = rs.length + 2
  · subst he1
    have hwx : addrGet b (rs.length + 2) = some w1 := by
      have hx := addrGet_addrSet_ne (l := b) (a := other) (b := rs.length + 2)
        (.BranchZero b.length) (by omega)
      rw [hshape, addrGet_cons3_cases, if_pos rfl] at hx
      exact hx.symm
    rw [hwx] at hp
    exact absurd (Option.some.inj hp) (nonBranch_ne_bnz hw1 _)
  · have he2 : t' = rs.length + 1 := by omega
    subst he2
    have hwx : addrGet b (rs.length + 1) = some w2 := by
      have hx := addrGet_addrSet_ne (l := b) (a := other) (b := rs.length + 1)
        (.BranchZero b.length) (by omega)
      rw [hshape, addrGet_cons3_cases, if_neg (by omega), if_pos rfl] at hx
      exact hx.symm
    rw [hwx] at hp
    exact absurd (Option.some.inj hp) (nonBranch_ne_bnz hw2 _)

/-- Fusing a 2-instruction tail (placeholder plus one-instruction body)
into a single non-branch instruction preserves the invariant. -/
theorem inv_fuse2 {b : List Opcode} {rest : List Nat} {other t' : Nat} {w c : Opcode}
    {rs : List Opcode}
    (h : Inv b (other :: rest)) (hw : nonBranch w) (hc : nonBranch c)
    (hshape : addrSet b other (.BranchZero b.length) = w :: .BranchZero t' :: rs) :
    Inv (c :: rs) rest := by
  obtain ⟨hoth, hblen⟩ := close_locate2 h hw hshape
  have hw1 : addrGet b (rs.length + 1) = some w := by
    have hx := addrGet_addrSet_ne (l := b) (a := other) (b := rs.length + 1)
      (.BranchZero b.length) (by omega)
    rw [hshape, addrGet_cons2_cases, if_pos rfl] at hx
    exact hx.symm
  have hbz0 : addrGet b rs.length = some (.BranchZero 0) := by
    rw [← hoth]
    exact h.stackBZ other (List.mem_cons_self _ _)
  have htr : ∀ k, k < rs.length → addrGet b k = addrGet rs k := by
    intro k hk
    have hx := addrGet_addrSet_ne (l := b) (a := other) (b := k)
      (.BranchZero b.length) (by omega)
    rw [hshape, addrGet_cons2_cases, if_neg (by omega), if_neg (by omega)] at hx
    exact hx.symm
  have hrestlt : ∀ a ∈ rest, a < other := (List.pairwise_cons.1 h.sorted).1
  constructor
  · exact (List.pairwise_cons.1 h.sorted).2
  · intro a ha
    have := hrestlt a ha
    simp only [List.length_cons]
    omega
  · intro a ha
    have h1 := h.stackBZ a (List.mem_cons_of_mem _ ha)
    have h2 : a < rs.length := by
      have := hrestlt a ha
      omega
    rw [htr a h2] at h1
    rw [addrGet_cons_cases, if_neg (by omega)]
    exact h1
  · intro a t hat hna
    rw [addrGet_cons_cases] at hat
    split at hat
    · exact absurd (Option.some.inj hat) (nonBranch_ne_bz hc t)
    · rename_i hane
      have halt : a < rs.length := addrGet_lt hat
      rw [← htr a halt] at hat
      have hna2 : a ∉ other :: rest := by
        intro hmem
        rcases List.mem_cons.1 hmem with he | hmem
        · omega
        · exact hna hmem
      obtain ⟨h1, h2⟩ := h.bz a t hat hna2
      have htlt : t < b.length := addrGet_lt h2
      have ht1 : t ≠ rs.length + 1 := by
        intro he
        subst he
        rw [hw1] at h2
        exact absurd (Option.some.inj h2) (nonBranch_ne_bnz hw a)
      have ht2 : t ≠ rs.length := by
        intro he
        subst he
        rw [hbz0] at h2
        simp at h2
      have ht3 : t < rs.length := by omega
      rw [htr t ht3] at h2
      refine ⟨h1, ?_⟩
      rw [addrGet_cons_cases, if_neg (by omega)]
      exact h2
  · intro a t hat
    rw [addrGet_cons_cases] at hat
    split at hat
    · exact absurd (Option.some.inj hat) (nonBranch_ne_bnz hc t)
    · rename_i hane
      have halt : a < rs.length := addrGet_lt hat
      rw [← htr a halt] at hat
      obtain ⟨h1, h2, h3⟩ := h.bnz a t hat
      have ht3 : t < rs.length := by omega
      rw [htr t ht3] at h3
      refine ⟨h1, fun hmem => h2 (List.mem_cons_of_mem _ hmem), ?_⟩
      rw [addrGet_cons_cases, if_neg (by omega)]
      exact h3

/-- Fusing a 3-instruction tail into a single non-branch instruction
preserves the invariant. -/
theorem inv_fuse3 {b : List Opcode} {rest : List Nat} {other t' : Nat} {w1 w2 c : Opcode}
    {rs : List Opcode}
    (h : Inv b (other :: rest)) (hw1 : nonBranch w1) (hw2 : nonBranch w2) (hc : nonBranch c)
    (hshape : addrSet b other (.BranchZero b.length) = w1 :: w2 :: .BranchZero t' :: rs) :
    Inv (c :: rs) rest := by
  obtain ⟨hoth, hblen⟩ := close_locate3 h hw1 hw2 hshape
  have hwx1 : addrGet b (rs.length + 2) = some w1 := by
    have hx := addrGet_addrSet_ne (l := b) (a := other) (b := rs.length + 2)
      (.BranchZero b.length) (by omega)
    rw [hshape, addrGet_cons3_cases, if_pos rfl] at hx
    exact hx.symm
  have hwx2 : addrGet b (rs.length + 1) = some w2 := by
    have hx := addrGet_addrSet_ne (l := b) (a := other) (b := rs.length + 1)
      (.BranchZero b.length) (by omega)
    rw [hshape, addrGet_cons3_cases, if_neg (by omega), if_pos rfl] at hx
    exact hx.symm
  have hbz0 : addrGet b rs.length = some (.BranchZero 0) := by
    rw [← hoth]
    exact h.stackBZ other (List.mem_cons_self _ _)
  have htr : ∀ k, k < rs.length → addrGet b k = addrGet rs k := by
    intro k hk
    have hx := addrGet_addrSet_ne (l := b) (a := other) (b := k)
      (.BranchZero b.length) (by omega)
    rw [hshape, addrGet_cons3_cases, if_neg (by omega), if_neg (by omega),
        if_neg (by omega)] at hx
    exact hx.symm
  have hrestlt : ∀ a ∈ rest, a < other := (List.pairwise_cons.1 h.sorted).1
  constructor
  · exact (List.pairwise_cons.1 h.sorted).2
  · intro a ha
    have := hrestlt a ha
    simp only [List.length_cons]
    omega
  · intro a ha
    have h1 := h.stackBZ a (List.mem_cons_of_mem _ ha)
    have h2 : a < rs.length := by
      have := hrestlt a ha
      omega
    rw [htr a h2] at h1
    rw [addrGet_cons_cases, if_neg (by omega)]
    exact h1
  · intro a t hat hna
    rw [addrGet_cons_cases] at hat
    split at hat
    · exact absurd (Option.some.inj hat) (nonBranch_ne_bz hc t)
    · rename_i hane
      have halt : a < rs.length := addrGet_lt hat
      rw [← htr a halt] at hat
      have hna2 : a ∉ other :: rest := by
        intro hmem
        rcases List.mem_cons.1 hmem with he | hmem
        · omega
        · exact hna hmem
      obtain ⟨h1, h2⟩ := h.bz a t hat hna2
      have htlt : t < b.length := addrGet_lt h2
      have ht1 : t ≠ rs.length + 2 := by
        intro he
        subst he
        rw [hwx1] at h2
        exact absurd (Option.some.inj h2) (nonBranch_ne_bnz hw1 a)
      have ht2 : t ≠ rs.length + 1 := by
        intro he
        subst he
        rw [hwx2] at h2
        exact absurd (Option.some.inj h2) (nonBranch_ne_bnz hw2 a)
      have ht3 : t ≠ rs.length := by
        intro he
        subst he
        rw [hbz0] at h2
        simp at h2
      have ht4 : t < rs.length := by omega
      rw [htr t ht4] at h2
      refine ⟨h1, ?_⟩
      rw [addrGet_cons_cases, if_neg (by omega)]
      exact h2
  · intro a t hat
    rw [addrGet_cons_cases] at hat
    split at hat
    · exact absurd (Option.some.inj hat) (nonBranch_ne_bnz hc t)
    · rename_i hane
      have halt : a < rs.length := addrGet_lt hat
      rw [← htr a halt] at hat
      obtain ⟨h1, h2, h3⟩ := h.bnz a t hat
      have ht4 : t < rs.length := by omega
      rw [htr t ht4] at h3
      refine ⟨h1, fun hmem => h2 (List.mem_cons_of_mem _ hmem), ?_⟩
      rw [addrGet_cons_cases, if_neg (by omega)]
      exact h3

/-- The default `LoopClose` arm (patch the placeholder, push
`BranchNotZero other`) establishes the invariant for the popped stack. -/
theorem inv_pushBNZ_case {b : List Opcode} {rest : List Nat} {other : Nat}
    {b' : List Opcode} {st' : List Nat}
    (h : Inv b (other :: rest))
    (he : pushBNZ (addrSet b other (.BranchZero b.length)) other rest = .mid ⟨b', st'⟩) :
    Inv b' st' := by
  unfold pushBNZ at he
  split at he
  case isFalse => cases he
  cases he
  have hol : other < b.length := h.stackLt other (List.mem_cons_self _ _)
  have hlenr1 : (addrSet b other (Opcode.BranchZero b.length)).length = b.length :=
    length_addrSet _ _ _
  have hr1o : addrGet (addrSet b other (Opcode.BranchZero b.length)) other =
      some (.BranchZero b.length) := addrGet_addrSet_self _ hol
  have hr1ne : ∀ x, x ≠ other →
      addrGet (addrSet b other (Opcode.BranchZero b.length)) x = addrGet b x :=
    fun x hx => addrGet_addrSet_ne _ hx
  have hrestlt : ∀ a ∈ rest, a < other := (List.pairwise_cons.1 h.sorted).1
  constructor
  · exact (List.pairwise_cons.1 h.sorted).2
  · intro a ha
    have := hrestlt a ha
    simp only [List.length_cons, hlenr1]
    omega
  · intro a ha
    have h1 := h.stackBZ a (List.mem_cons_of_mem _ ha)
    have h2 : a < other := hrestlt a ha
    rw [addrGet_cons_cases, if_neg (by omega), hr1ne a (by omega)]
    exact h1
  · intro a t hat hna
    rw [addrGet_cons_cases] at hat
    split at hat
    · simp at hat
    · rename_i hane
      by_cases hao : a = other
      · subst hao
        rw [hr1o] at hat
        simp only [Option.some.injEq, Opcode.BranchZero.injEq] at hat
        subst hat
        refine ⟨hol, ?_⟩
        rw [addrGet_cons_cases, if_pos (by omega)]
      · rw [hr1ne a hao] at hat
        have hna2 : a ∉ other :: rest := by
          intro hmem
          rcases List.mem_cons.1 hmem with he2 | hmem
          · exact hao he2
          · exact hna hmem
        obtain ⟨h1, h2⟩ := h.bz a t hat hna2
        have hto : t ≠ other := by
          intro he2
          subst he2
          rw [h.stackBZ t (List.mem_cons_self _ _)] at h2
          simp at h2
        refine ⟨h1, ?_⟩
        rw [addrGet_cons_cases, if_neg (by have := addrGet_lt h2; omega), hr1ne t hto]
        exact h2
  · intro a t hat
    rw [addrGet_cons_cases] at hat
    split at hat
    · rename_i hae
      simp only [Option.some.injEq, Opcode.BranchNotZero.injEq] at hat
      subst hat
      subst hae
      refine ⟨by omega, ?_, ?_⟩
      · intro hmem
        have := hrestlt other hmem
        omega
      · rw [addrGet_cons_cases, if_neg (by omega), hr1o, hlenr1]
    · rename_i hane
      have hao : a ≠ other := by
        intro he2
        subst he2
        rw [hr1o] at hat
        simp at hat
      rw [hr1ne a hao] at hat
      obtain ⟨h1, h2, h3⟩ := h.bnz a t hat
      have hto : t ≠ other := fun he2 => h2 (he2 ▸ List.mem_cons_self _ _)
      refine ⟨h1, fun hmem => h2 (List.mem_cons_of_mem _ hmem), ?_⟩
      rw [addrGet_cons_cases, if_neg (by have := addrGet_lt h3; omega), hr1ne t hto]
      exact h3

/-- `LoopClose` preserves the invariant (for the popped stack). -/
theorem inv_closeStep {s : GenSt Opcode} {b' : List Opcode} {st' : List Nat}
    (h : Inv s.rbuf s.stack) (he : closeStep s = .mid ⟨b', st'⟩) : Inv b' st' := by
  rcases s with ⟨b, st⟩
  simp only at h
  cases st with
  | nil => simp [closeStep] at he
  | cons other rest =>
    simp only [closeStep] at he
    split at he
    case isFalse => cases he
    split at he
    · rename_i heq
      cases he
      exact inv_fuse2 h (by trivial) (by trivial) heq
    · rename_i heq
      split at he
      · cases he
        exact inv_fuse3 h (by trivial) (by trivial) (by trivial) heq
      · exact inv_pushBNZ_case h he
    · rename_i heq
      split at he
      · cases he
        exact inv_fuse3 h (by trivial) (by trivial) (by trivial) heq
      · exact inv_pushBNZ_case h he
    · rename_i heq
      cases he
      exact inv_fuse2 h (by trivial) (by trivial) heq
    · exact inv_pushBNZ_case h he

/-- The per-token step preserves the invariant. -/
theorem inv_tokStep {s : GenSt Opcode} {t : BasicOpcode} {s' : GenSt Opcode}
    (h : Inv s.rbuf s.stack) (he : tokStep s t = .mid s') : Inv s'.rbuf s'.stack := by
  cases t <;> simp only [tokStep] at he
  · cases he
    exact inv_stepAdd h
  · cases he
    exact inv_stepSub h
  · cases he
    exact inv_open h
  · rcases s' with ⟨b', st'⟩
    exact inv_closeStep h he
  · cases he
    exact inv_stepRight h
  · cases he
    exact inv_stepLeft h
  · cases he
    exact inv_cons_nonbranch h trivial
  · cases he
    exact inv_cons_nonbranch h trivial

/-- A full compiler step (token plus redundant-code check) preserves the
invariant. -/
theorem inv_genStep {s : GenSt Opcode} {t : BasicOpcode} {s' : GenSt Opcode}
    (h : Inv s.rbuf s.stack) (he : genStep s t = .mid s') : Inv s'.rbuf s'.stack := by
  unfold genStep at he
  cases ht : tokStep s t with
  | mid s1 =>
    rw [ht] at he
    simp only at he
    cases hr : redundCheck s1.rbuf with
    | keep r2 =>
      rw [hr] at he
      cases he
      have h2 := inv_tokStep h ht
      exact inv_redund h2 hr
    | crash =>
      rw [hr] at he
      cases he
  | errC e =>
    rw [ht] at he
    cases he
  | crash =>
    rw [ht] at he
    cases he

/-- Folding the whole token stream preserves the invariant. -/
theorem inv_genFold : ∀ (ts : List BasicOpcode) (s s' : GenSt Opcode),
    Inv s.rbuf s.stack → genFold s ts = .mid s' → Inv s'.rbuf s'.stack := by
  intro ts
  induction ts with
  | nil =>
    intro s s' h he
    cases he
    exact h
  | cons t ts ih =>
    intro s s' h he
    simp only [genFold] at he
    cases hg : genStep s t with
    | mid s1 =>
      rw [hg] at he
      exact ih s1 s' (inv_genStep h hg) he
    | errC e =>
      rw [hg] at he
      cases he
    | crash =>
      rw [hg] at he
      cases he

end ShiftAddEngine

/-- Claim C7 (corrected).  In every successfully compiled `ShiftAddEngine`
program, each `BranchZero` at address `a` carries a target `t > a` that is
the address OF its matching `BranchNotZero` (not of the instruction after
it): the opcode at the target is `BranchNotZero a`, pointing straight
back.  Symmetrically, each `BranchNotZero` at address `a` targets the
address of its matching `BranchZero`, whose stored target is `a`. -/
theorem C7_branch_targets :
    ∀ (ts : List BasicOpcode) (P : List ShiftAddEngine.Opcode),
      ShiftAddEngine.generate ts = .ok P →
      (∀ a t, P.get? a = some (.BranchZero t) →
         a < t ∧ P.get? t = some (.BranchNotZero a)) ∧
      (∀ a t, P.get? a = some (.BranchNotZero t) →
         t < a ∧ P.get? t = some (.BranchZero a)) := by
  intro ts P hg
  unfold ShiftAddEngine.generate at hg
  cases hf : ShiftAddEngine.genFold ⟨[], []⟩ ts with
  | mid s =>
    rw [hf] at hg
    simp only at hg
    by_cases hs : s.stack.isEmpty
    case neg =>
      rw [if_neg hs] at hg
      cases hg
    rw [if_pos hs] at hg
    cases hg
    have hstack : s.stack = [] := List.isEmpty_iff.1 hs
    have hinv : ShiftAddEngine.Inv s.rbuf s.stack :=
      ShiftAddEngine.inv_genFold ts _ s ShiftAddEngine.inv_nil hf
    rw [hstack] at hinv
    have hinv2 : ShiftAddEngine.Inv (.Exit :: s.rbuf) [] :=
      ShiftAddEngine.inv_cons_nonbranch hinv trivial
    constructor
    · intro a t hat
      rw [addrGet_eq_reverse_get] at hat
      obtain ⟨h1, h2⟩ := hinv2.bz a t hat (by simp)
      exact ⟨h1, by rw [addrGet_eq_reverse_get]; exact h2⟩
    · intro a t hat
      rw [addrGet_eq_reverse_get] at hat
      obtain ⟨h1, _, h2⟩ := hinv2.bnz a t hat
      exact ⟨h1, by rw [addrGet_eq_reverse_get]; exact h2⟩
  | errC e =>
    rw [hf] at hg
    cases hg
  | crash =>
    rw [hf] at hg
    cases hg

/-- Witness for C7: in the compiled form of `[.]` the `BranchZero` at
address 0 stores target 2, and address 2 indeed holds `BranchNotZero 0`. -/
theorem C7_witness :
    0 < 2 ∧ ([ShiftAddEngine.Opcode.BranchZero 2, .Dot, .BranchNotZero 0, .Exit].get? 2 =
      some (.BranchNotZero 0)) :=
  (C7_branch_targets [.Open, .Dot, .Close]
    [.BranchZero 2, .Dot, .BranchNotZero 0, .Exit] (by decide)).1 0 2 rfl

/-- Counterexample for C7 as stated: `[.]` compiles so that the
`BranchZero` at address 0 carries target 2, which is the address of its
matching `BranchNotZero` itself, not the address 3 of the instruction
immediately following that `BranchNotZero`. -/
theorem C7_counterexample :
    ShiftAddEngine.generate [.Open, .Dot, .Close] =
      .ok [.BranchZero 2, .Dot, .BranchNotZero 0, .Exit] ∧
    ([ShiftAddEngine.Opcode.BranchZero 2, .Dot, .BranchNotZero 0, .Exit].get? 0 =
      some (.BranchZero 2)) ∧
    ([ShiftAddEngine.Opcode.BranchZero 2, .Dot, .BranchNotZero 0, .Exit].get? 2 =
      some (.BranchNotZero 0)) ∧
    ¬ ([ShiftAddEngine.Opcode.BranchZero 2, .Dot, .BranchNotZero 0, .Exit].get? 0 =
      some (.BranchZero 3)) :=
  ⟨by decide, by decide, by decide, by decide⟩

namespace ShiftAddEngine

/-- A `LoopClose` with a nonempty open stack and 65536 or more emitted
instructions crashes on `this.try_into().unwrap()`. -/
theorem closeStep_overflow (s : GenSt Opcode) (h1 : s.stack ≠ [])
    (h2 : 65536 ≤ s.rbuf.length) : closeStep s = .crash := by
  rcases s with ⟨b, st⟩
  have h2' : 65536 ≤ b.length := h2
  cases st with
  | nil => simp at h1
  | cons other rest =>
    simp only [closeStep]
    rw [if_neg (by omega)]

theorem genStep_close_crash {s : GenSt Opcode} (h1 : s.stack ≠ [])
    (h2 : 65536 ≤ s.rbuf.length) : genStep s .Close = .crash := by
  unfold genStep
  have ht : tokStep s .Close = closeStep s := rfl
  rw [ht, closeStep_overflow s h1 h2]

theorem genFold_append (l1 l2 : List BasicOpcode) (s : GenSt Opcode) :
    genFold s (l1 ++ l2) =
      match genFold s l1 with
      | .mid s' => genFold s' l2
      | .errC e => .errC e
      | .crash => .crash := by
  induction l1 generalizing s with
  | nil => rfl
  | cons t ts ih =>
    simp only [List.cons_append, genFold]
    cases h : genStep s t with
    | mid s' => exact ih s'
    | errC e => rfl
    | crash => rfl

/-- Processing a block of `.` tokens only appends `Dot` instructions. -/
theorem genFold_dots (n : Nat) : ∀ (s : GenSt Opcode),
    genFold s (List.replicate n .Dot) =
      .mid ⟨List.replicate n Opcode.Dot ++ s.rbuf, s.stack⟩ := by
  induction n with
  | zero =>
    intro s
    rfl
  | succ n ih =>
    intro s
    rw [List.replicate_succ]
    have hstep : genStep s .Dot = .mid ⟨.Dot :: s.rbuf, s.stack⟩ := rfl
    simp only [genFold, hstep]
    rw [ih]
    simp [List.replicate_succ']

end ShiftAddEngine

/-- Claim C10 (confirmed).  Whenever compilation reaches a `LoopClose`
with a pending open loop and at least 65536 already-emitted instructions,
`ShiftAddEngine::generate` crashes on the `try_into().unwrap()` that
converts the close address to u16, instead of returning a `CompileError`
or a `Program`. -/
theorem C10_close_address_overflow :
    ∀ (ts1 ts2 : List BasicOpcode) (s' : GenSt ShiftAddEngine.Opcode),
      ShiftAddEngine.genFold ⟨[], []⟩ ts1 = .mid s' →
      s'.stack ≠ [] → 65536 ≤ s'.rbuf.length →
      ShiftAddEngine.generate (ts1 ++ .Close :: ts2) = .crash := by
  intro ts1 ts2 s' h1 h2 h3
  unfold ShiftAddEngine.generate
  rw [ShiftAddEngine.genFold_append, h1]
  simp only [ShiftAddEngine.genFold]
  rw [ShiftAddEngine.genStep_close_crash h2 h3]

/-- Witness for C10: one open bracket, 65535 output instructions, then the
closing bracket; the close address is 65536 and compilation crashes. -/
theorem C10_witness :
    ShiftAddEngine.generate
      (([BasicOpcode.Open] ++ List.replicate 65535 BasicOpcode.Dot) ++ [.Close]) = .crash := by
  have h1 : ShiftAddEngine.genFold ⟨[], []⟩
      ([BasicOpcode.Open] ++ List.replicate 65535 BasicOpcode.Dot) =
      .mid ⟨List.replicate 65535 ShiftAddEngine.Opcode.Dot ++ [.BranchZero 0], [0]⟩ := by
    rw [ShiftAddEngine.genFold_append]
    simp only [show ShiftAddEngine.genFold ⟨[], []⟩ [BasicOpcode.Open] =
      .mid ⟨[.BranchZero 0], [0]⟩ from rfl]
    exact ShiftAddEngine.genFold_dots 65535 ⟨[.BranchZero 0], [0]⟩
  have hlen : 65536 ≤
      (List.replicate 65535 ShiftAddEngine.Opcode.Dot ++
        [ShiftAddEngine.Opcode.BranchZero 0]).length := by
    rw [List.length_append, List.length_replicate, List.length_singleton]
  exact C10_close_address_overflow ([BasicOpcode.Open] ++ List.replicate 65535 BasicOpcode.Dot)
    [] ⟨List.replicate 65535 ShiftAddEngine.Opcode.Dot ++ [.BranchZero 0], [0]⟩
    h1 (by simp) hlen
